import Mathlib

/-!
Verification of the timeline / phrase / safe-zone core of the
`video_editor_automation` repository.

The Python sources are shallowly embedded here:

* `src/core/audio_processor.py`  — `AudioProcessor.get_phrases_from_segments`
* `src/core/timeline_manager.py` — `TimelineManager.build_render_timeline`,
  `TimelineManager.export_timeline`
* `src/resume_assembly.py`       — the segment conversion of `resume_assembly`
* `src/core/content_analyzer.py` — the selection policy at the end of
  `ContentAnalyzer.batch_analyze_segments`
* `src/core/face_detector.py`    — `FaceDetector.calculate_safe_zones`,
  `FaceDetector._rectangles_overlap`, `FaceDetector._calculate_overlap_percentage`
* `src/core/video_assembler.py`  — the clip-building loop of
  `VideoAssembler.assemble_final_video`

Python floats are modelled as `ℚ` (all constants of interest are exact),
Python string-keyed dicts as structures whose optional keys are `Option`
fields, and Python's stable `list.sort` as `List.insertionSort`
(Mathlib's insertion sort is stable, sorted and a permutation, which
characterises the output of any stable sort, including CPython's Timsort).
-/

set_option maxHeartbeats 1000000
set_option maxRecDepth 4000

/-! ## Data model: speech segments and phrases (`audio_processor.py`) -/

/-- One transcription segment as consumed by `get_phrases_from_segments`:
the dict `{id, text, start, end}`. -/
structure SpeechSegment where
  id : Int
  text : String
  start : ℚ
  «end» : ℚ
deriving DecidableEq, Repr

/-- One produced phrase: the dict `{text, start, end, segment_ids}` appended
to `phrases`. -/
structure Phrase where
  text : String
  start : ℚ
  «end» : ℚ
  segment_ids : List Int
deriving DecidableEq, Repr

/-- The in-progress `current_phrase` dict of `get_phrases_from_segments`;
`start` and `end` are `None` until the first segment is absorbed. -/
structure CurPhrase where
  text : String
  start : Option ℚ
  «end» : Option ℚ
  segment_ids : List Int
deriving DecidableEq, Repr

/-- The freshly initialised `current_phrase` of line 65 of
`audio_processor.py`. -/
def initPhrase : CurPhrase := ⟨"", none, none, []⟩

/-- One iteration of the `for segment in segments` loop of
`get_phrases_from_segments` (lines 66-85 of `audio_processor.py`), acting on
the pair (emitted phrases, current phrase). -/
def phraseStep (max_duration : ℚ) (st : List Phrase × CurPhrase)
    (segment : SpeechSegment) : List Phrase × CurPhrase :=
  let cur : CurPhrase :=
    match st.2.start with
    | none => { st.2 with start := some segment.start }
    | some _ => st.2
  let pstart : ℚ := cur.start.getD 0
  let duration : ℚ := segment.«end» - pstart
  if max_duration < duration ∧ cur.text ≠ "" then
    (st.1 ++ [⟨cur.text, pstart, segment.start, cur.segment_ids⟩],
     ⟨segment.text, some segment.start, some segment.«end», [segment.id]⟩)
  else
    (st.1,
     ⟨if cur.text ≠ "" then cur.text ++ " " ++ segment.text else segment.text,
      cur.start, some segment.«end», cur.segment_ids ++ [segment.id]⟩)

/-- Shallow embedding of `AudioProcessor.get_phrases_from_segments`
(lines 63-89 of `audio_processor.py`). -/
def get_phrases_from_segments (segments : List SpeechSegment)
    (max_duration : ℚ := 5) : List Phrase :=
  let st := segments.foldl (phraseStep max_duration) ([], initPhrase)
  if st.2.text ≠ "" then
    st.1 ++ [⟨st.2.text, st.2.start.getD 0, st.2.«end».getD 0, st.2.segment_ids⟩]
  else st.1

/-! ### Unfolding lemmas for `phraseStep` -/

/-- Appending a space-separated word never yields the empty string. -/
theorem append_space_ne_empty (t u : String) : t ++ " " ++ u ≠ "" := by
  intro h
  have h2 := congrArg String.length h
  rw [String.length_append, String.length_append] at h2
  rw [show (" " : String).length = 1 from rfl, show ("" : String).length = 0 from rfl] at h2
  omega

/-- A fresh current phrase absorbs the first segment without splitting. -/
theorem phraseStep_fresh (md : ℚ) (ph : List Phrase) (s : SpeechSegment) :
    phraseStep md (ph, initPhrase) s =
      (ph, ⟨s.text, some s.start, some s.«end», [s.id]⟩) := by
  simp [phraseStep, initPhrase]

/-- A started current phrase with an empty text is never closed: the next
segment is glued in. -/
theorem phraseStep_none_start (md : ℚ) (ph : List Phrase) (c : CurPhrase) (s : SpeechSegment)
    (hst : c.start = none) (htx : c.text = "") :
    phraseStep md (ph, c) s =
      (ph, ⟨s.text, some s.start, some s.«end», c.segment_ids ++ [s.id]⟩) := by
  simp [phraseStep, hst, htx]

/-- When the incoming segment pushes the span over `max_duration` and the
current phrase has text, the phrase is closed with its end set to the
segment's start. -/
theorem phraseStep_split (md : ℚ) (ph : List Phrase) (t : String) (a : ℚ) (b : Option ℚ)
    (ids : List Int) (s : SpeechSegment) (htx : t ≠ "") (hd : md < s.«end» - a) :
    phraseStep md (ph, ⟨t, some a, b, ids⟩) s =
      (ph ++ [⟨t, a, s.start, ids⟩],
       ⟨s.text, some s.start, some s.«end», [s.id]⟩) := by
  simp [phraseStep, htx, hd]

/-- When the span stays within `max_duration`, the segment is appended to the
current phrase. -/
theorem phraseStep_glue (md : ℚ) (ph : List Phrase) (t : String) (a : ℚ) (b : Option ℚ)
    (ids : List Int) (s : SpeechSegment) (htx : t ≠ "") (hd : ¬ md < s.«end» - a) :
    phraseStep md (ph, ⟨t, some a, b, ids⟩) s =
      (ph, ⟨t ++ " " ++ s.text, some a, some s.«end», ids ++ [s.id]⟩) := by
  simp [phraseStep, htx, hd]

/-- A started current phrase whose text is empty absorbs the segment without
closing, whatever the duration. -/
theorem phraseStep_empty_text (md : ℚ) (ph : List Phrase) (a : ℚ) (b : Option ℚ)
    (ids : List Int) (s : SpeechSegment) :
    phraseStep md (ph, ⟨"", some a, b, ids⟩) s =
      (ph, ⟨s.text, some a, some s.«end», ids ++ [s.id]⟩) := by
  simp [phraseStep]

/-- C3: `get_phrases_from_segments` closes the current phrase exactly when the
next segment would make `segment.end - phrase.start` exceed `max_duration`
while the phrase already has text, and the closed phrase's end is the
triggering segment's start; zero segments yield zero phrases; a single
segment (with text), even longer than `max_duration`, is emitted as one
phrase; and the spec's three-segment scenario with `max_duration = 5` yields
exactly `("hello world", 0, 3)` and `("today", 3, 9)`. -/
theorem get_phrases_rules (md : ℚ) (s s1 s2 : SpeechSegment) :
    get_phrases_from_segments [] md = [] ∧
    (s.text ≠ "" → get_phrases_from_segments [s] md =
      [⟨s.text, s.start, s.«end», [s.id]⟩]) ∧
    (s1.text ≠ "" → s2.text ≠ "" → md < s2.«end» - s1.start →
      get_phrases_from_segments [s1, s2] md =
        [⟨s1.text, s1.start, s2.start, [s1.id]⟩,
         ⟨s2.text, s2.start, s2.«end», [s2.id]⟩]) ∧
    (s1.text ≠ "" → ¬ md < s2.«end» - s1.start →
      get_phrases_from_segments [s1, s2] md =
        [⟨s1.text ++ " " ++ s2.text, s1.start, s2.«end», [s1.id, s2.id]⟩]) ∧
    get_phrases_from_segments
        [⟨1, "hello", 0, 2⟩, ⟨2, "world", 2, 3⟩, ⟨3, "today", 3, 9⟩] 5 =
      [⟨"hello world", 0, 3, [1, 2]⟩, ⟨"today", 3, 9, [3]⟩] := by
  refine ⟨rfl, ?_, ?_, ?_, ?_⟩
  · intro h
    simp [get_phrases_from_segments, List.foldl, phraseStep_fresh, h]
  · intro h1 h2 hd
    simp [get_phrases_from_segments, List.foldl, phraseStep_fresh,
      phraseStep_split md [] s1.text s1.start (some s1.«end») [s1.id] s2 h1 hd, h2]
  · intro h1 hd
    have h3 := append_space_ne_empty s1.text s2.text
    simp [get_phrases_from_segments, List.foldl, phraseStep_fresh,
      phraseStep_glue md [] s1.text s1.start (some s1.«end») [s1.id] s2 h1 hd, h3]
  · norm_num [get_phrases_from_segments, phraseStep, initPhrase, List.foldl]
    simp

/-- Witness for C3: the split rule evaluated on two concrete segments. -/
theorem get_phrases_rules_witness :
    get_phrases_from_segments [⟨1, "a", 0, 2⟩, ⟨2, "b", 6, 7⟩] 5 =
      [⟨"a", 0, 6, [1]⟩, ⟨"b", 6, 7, [2]⟩] :=
  (get_phrases_rules 5 ⟨1, "a", 0, 2⟩ ⟨1, "a", 0, 2⟩ ⟨2, "b", 6, 7⟩).2.2.1
    (by decide) (by decide) (by norm_num)

/-! ### Invariants of the phrase fold (C4) -/

/-- Invariant carried through the `get_phrases_from_segments` loop: the
emitted phrases chain without overlap, each spans forward, and the current
phrase is consistent with the last emitted phrase. -/
def phraseInv (st : List Phrase × CurPhrase) : Prop :=
  st.1.Chain' (fun p q => p.«end» ≤ q.start) ∧
  (∀ p ∈ st.1, p.start ≤ p.«end») ∧
  (st.2.start = none → st.2.text = "" ∧ st.1 = []) ∧
  (∀ a : ℚ, st.2.start = some a →
    (∃ b : ℚ, st.2.«end» = some b ∧ a ≤ b) ∧ ∀ p ∈ st.1.getLast?, p.«end» ≤ a)

/-- The loop of `get_phrases_from_segments` preserves `phraseInv` along any
time-ordered segment list whose first start is at or after the current
phrase's start. -/
theorem phraseInv_foldl (md : ℚ) :
    ∀ (segs : List SpeechSegment) (st : List Phrase × CurPhrase),
      (∀ s ∈ segs, s.start ≤ s.«end») →
      segs.Chain' (fun s t => s.start ≤ t.start) →
      phraseInv st →
      (∀ s ∈ segs.head?, ∀ a ∈ st.2.start, a ≤ s.start) →
      phraseInv (segs.foldl (phraseStep md) st) := by
  intro segs
  induction segs with
  | nil => intro st _ _ hinv _; exact hinv
  | cons s rest ih =>
    intro st hval hchain hinv hlink
    rw [List.foldl_cons]
    have hs : s.start ≤ s.«end» := hval s (List.mem_cons_self s rest)
    have hrest_val : ∀ t ∈ rest, t.start ≤ t.«end» :=
      fun t ht => hval t (List.mem_cons_of_mem s ht)
    have hrest_chain : rest.Chain' (fun u t => u.start ≤ t.start) := hchain.tail
    have hnext : ∀ t ∈ rest.head?, s.start ≤ t.start := (List.chain'_cons'.mp hchain).1
    obtain ⟨ph, c⟩ := st
    obtain ⟨t, cst, ce, ids⟩ := c
    cases cst with
    | none =>
      obtain ⟨htx, hph⟩ := hinv.2.2.1 rfl
      simp only at htx
      rw [phraseStep_none_start md ph _ s rfl htx]
      refine ih _ hrest_val hrest_chain ⟨?_, ?_, by simp, ?_⟩ ?_
      · simp only at hph; simp [hph]
      · simp only at hph; simp [hph]
      · intro a ha
        simp only [Option.some.injEq] at ha
        subst ha
        refine ⟨⟨s.«end», rfl, hs⟩, ?_⟩
        simp only at hph; simp [hph]
      · intro u hu a ha
        simp only [Option.mem_def, Option.some.injEq] at ha
        subst ha
        exact hnext u hu
    | some a =>
      obtain ⟨⟨b, hb, hab⟩, hlast⟩ := hinv.2.2.2 a rfl
      have has : a ≤ s.start := hlink s rfl a rfl
      by_cases htx : t = ""
      · subst htx
        rw [phraseStep_empty_text md ph a ce ids s]
        refine ih _ hrest_val hrest_chain
          ⟨hinv.1, hinv.2.1, by simp, ?_⟩ ?_
        · intro x hx
          simp only [Option.some.injEq] at hx
          subst hx
          exact ⟨⟨s.«end», rfl, le_trans has hs⟩, hlast⟩
        · intro u hu x hx
          simp only [Option.mem_def, Option.some.injEq] at hx
          subst hx
          exact le_trans has (hnext u hu)
      · by_cases hd : md < s.«end» - a
        · rw [phraseStep_split md ph t a ce ids s htx hd]
          refine ih _ hrest_val hrest_chain ⟨?_, ?_, by simp, ?_⟩ ?_
          · refine List.chain'_append.mpr ⟨hinv.1, List.chain'_singleton _, ?_⟩
            intro x hx y hy
            simp only [List.head?_cons, Option.mem_def, Option.some.injEq] at hy
            subst hy
            exact hlast x hx
          · intro p hp
            rcases List.mem_append.mp hp with h | h
            · exact hinv.2.1 p h
            · simp only [List.mem_singleton] at h
              subst h
              exact has
          · intro x hx
            simp only [Option.some.injEq] at hx
            subst hx
            refine ⟨⟨s.«end», rfl, hs⟩, ?_⟩
            intro p hp
            rw [List.getLast?_concat] at hp
            simp only [Option.mem_def, Option.some.injEq] at hp
            subst hp
            exact le_refl _
          · intro u hu x hx
            simp only [Option.mem_def, Option.some.injEq] at hx
            subst hx
            exact hnext u hu
        · rw [phraseStep_glue md ph t a ce ids s htx hd]
          refine ih _ hrest_val hrest_chain
            ⟨hinv.1, hinv.2.1, by simp, ?_⟩ ?_
          · intro x hx
            simp only [Option.some.injEq] at hx
            subst hx
            exact ⟨⟨s.«end», rfl, le_trans has hs⟩, hlast⟩
          · intro u hu x hx
            simp only [Option.mem_def, Option.some.injEq] at hx
            subst hx
            exact le_trans has (hnext u hu)

/-- Chain and span facts for the full `get_phrases_from_segments` output. -/
theorem get_phrases_chain_aux (segs : List SpeechSegment) (md : ℚ)
    (hval : ∀ s ∈ segs, s.start ≤ s.«end»)
    (hord : segs.Chain' (fun s t => s.start ≤ t.start)) :
    (get_phrases_from_segments segs md).Chain' (fun p q => p.«end» ≤ q.start) ∧
    (∀ p ∈ get_phrases_from_segments segs md, p.start ≤ p.«end») := by
  have hinit : phraseInv ([], initPhrase) := by
    refine ⟨List.chain'_nil, by simp, fun _ => ⟨rfl, rfl⟩, ?_⟩
    intro a ha
    simp [initPhrase] at ha
  have hinv := phraseInv_foldl md segs ([], initPhrase) hval hord hinit
    (by intro s hs a ha; simp [initPhrase] at ha)
  set st := segs.foldl (phraseStep md) ([], initPhrase) with hst
  by_cases htx : st.2.text = ""
  · have : get_phrases_from_segments segs md = st.1 := by
      simp [get_phrases_from_segments, ← hst, htx]
    rw [this]
    exact ⟨hinv.1, hinv.2.1⟩
  · rcases ha : st.2.start with _ | a
    · exact absurd (hinv.2.2.1 ha).1 htx
    · obtain ⟨⟨b, hb, hab⟩, hlast⟩ := hinv.2.2.2 a ha
      have hout : get_phrases_from_segments segs md =
          st.1 ++ [⟨st.2.text, a, b, st.2.segment_ids⟩] := by
        simp [get_phrases_from_segments, ← hst, htx, ha, hb]
      rw [hout]
      constructor
      · refine List.chain'_append.mpr ⟨hinv.1, List.chain'_singleton _, ?_⟩
        intro x hx y hy
        simp only [List.head?_cons, Option.mem_def, Option.some.injEq] at hy
        subst hy
        exact hlast x hx
      · intro p hp
        rcases List.mem_append.mp hp with h | h
        · exact hinv.2.1 p h
        · simp only [List.mem_singleton] at h
          subst h
          exact hab

/-- Every iteration of the phrase loop appends exactly the incoming segment's
id to the ids held by the state. -/
theorem phraseStep_ids (md : ℚ) (st : List Phrase × CurPhrase) (s : SpeechSegment) :
    ((phraseStep md st s).1.map Phrase.segment_ids).flatten ++
        (phraseStep md st s).2.segment_ids =
      ((st.1.map Phrase.segment_ids).flatten ++ st.2.segment_ids) ++ [s.id] := by
  obtain ⟨ph, c⟩ := st
  obtain ⟨t, cst, ce, ids⟩ := c
  cases cst <;>
    (simp only [phraseStep]
     split <;> simp)

/-- The ids accumulated by the phrase loop are the input segments' ids in
order. -/
theorem phrase_ids_foldl (md : ℚ) :
    ∀ (segs : List SpeechSegment) (st : List Phrase × CurPhrase),
      ((segs.foldl (phraseStep md) st).1.map Phrase.segment_ids).flatten ++
          (segs.foldl (phraseStep md) st).2.segment_ids =
        ((st.1.map Phrase.segment_ids).flatten ++ st.2.segment_ids) ++
          segs.map SpeechSegment.id := by
  intro segs
  induction segs with
  | nil => intro st; simp
  | cons s rest ih =>
    intro st
    rw [List.foldl_cons, ih (phraseStep md st s), phraseStep_ids]
    simp

/-- A segment with text keeps the current phrase's text nonempty. -/
theorem phraseStep_text_ne (md : ℚ) (st : List Phrase × CurPhrase) (s : SpeechSegment)
    (hs : s.text ≠ "") : (phraseStep md st s).2.text ≠ "" := by
  obtain ⟨ph, c⟩ := st
  obtain ⟨t, cst, ce, ids⟩ := c
  cases cst <;>
    (simp only [phraseStep]
     split
     · simpa using hs
     · by_cases htx : t = "" <;> simp [htx, hs, append_space_ne_empty])

/-- If all segments have text, an empty final phrase can only be the initial
one, hence holds no ids. -/
theorem phrase_text_foldl (md : ℚ) :
    ∀ (segs : List SpeechSegment) (st : List Phrase × CurPhrase),
      (∀ s ∈ segs, s.text ≠ "") →
      (st.2.text = "" → st.2.segment_ids = []) →
      ((segs.foldl (phraseStep md) st).2.text = "" →
        (segs.foldl (phraseStep md) st).2.segment_ids = []) := by
  intro segs
  induction segs with
  | nil => intro st _ h; exact h
  | cons s rest ih =>
    intro st htext h
    rw [List.foldl_cons]
    refine ih (phraseStep md st s) (fun t ht => htext t (List.mem_cons_of_mem s ht)) ?_
    intro habs
    exact absurd habs (phraseStep_text_ne md st s (htext s (List.mem_cons_self s rest)))

/-- C4 (amended): for every time-ordered sequence of speech segments with
nonempty text, the produced phrases have pairwise non-overlapping spans
(consecutive phrases touch or leave a gap, never overlap), and the
concatenation of the phrases' `segment_ids` is exactly the input id sequence,
so every segment id lands in exactly one phrase. -/
theorem get_phrases_partition (segs : List SpeechSegment) (md : ℚ)
    (hval : ∀ s ∈ segs, s.start ≤ s.«end»)
    (hord : segs.Chain' (fun s t => s.start ≤ t.start))
    (htext : ∀ s ∈ segs, s.text ≠ "") :
    (get_phrases_from_segments segs md).Chain' (fun p q => p.«end» ≤ q.start) ∧
    (∀ p ∈ get_phrases_from_segments segs md, p.start ≤ p.«end») ∧
    ((get_phrases_from_segments segs md).map Phrase.segment_ids).flatten =
      segs.map SpeechSegment.id := by
  obtain ⟨hchain, hspan⟩ := get_phrases_chain_aux segs md hval hord
  refine ⟨hchain, hspan, ?_⟩
  set st := segs.foldl (phraseStep md) ([], initPhrase) with hst
  have hids := phrase_ids_foldl md segs ([], initPhrase)
  rw [← hst] at hids
  simp only [List.map_nil, List.flatten_nil, initPhrase, List.nil_append] at hids
  by_cases htx : st.2.text = ""
  · have hnil : st.2.segment_ids = [] :=
      phrase_text_foldl md segs ([], initPhrase) htext (fun _ => rfl) htx
    have hout : get_phrases_from_segments segs md = st.1 := by
      simp [get_phrases_from_segments, ← hst, htx]
    rw [hout]
    rw [hnil, List.append_nil] at hids
    exact hids
  · have hout : get_phrases_from_segments segs md =
        st.1 ++ [⟨st.2.text, st.2.start.getD 0, st.2.«end».getD 0, st.2.segment_ids⟩] := by
      simp [get_phrases_from_segments, ← hst, htx]
    rw [hout]
    simpa using hids

/-- Counterexample to C4 as stated: a single, perfectly ordered segment whose
text is empty is dropped entirely, so its id appears in no phrase. -/
theorem get_phrases_drops_empty_text_id :
    (∀ s ∈ ([⟨1, "", 0, 1⟩] : List SpeechSegment), s.start ≤ s.«end») ∧
    ([⟨1, "", 0, 1⟩] : List SpeechSegment).Chain' (fun s t => s.start ≤ t.start) ∧
    ¬ ∃ p ∈ get_phrases_from_segments [⟨1, "", 0, 1⟩] 5, (1 : Int) ∈ p.segment_ids := by
  refine ⟨by decide, by simp, ?_⟩
  norm_num [get_phrases_from_segments, phraseStep, initPhrase, List.foldl]

/-- Witness for C4: the partition theorem applied to two concrete segments. -/
theorem get_phrases_partition_witness :
    ((get_phrases_from_segments [⟨1, "a", 0, 2⟩, ⟨2, "b", 2, 3⟩] 5).map
        Phrase.segment_ids).flatten = [1, 2] := by
  have h := get_phrases_partition [⟨1, "a", 0, 2⟩, ⟨2, "b", 2, 3⟩] 5
    (by decide) (List.chain'_pair.mpr (by decide)) (by decide)
  simpa using h.2.2

/-! ## Data model: timeline segments and render plan (`timeline_manager.py`) -/

/-- One `TimelineSegment` of `timeline_manager.py`; the Python `data` dict is
modelled as an opaque string payload (for image segments the render engine
reads it as the referenced image path). -/
structure TimelineSegment where
  start_time : ℚ
  end_time : ℚ
  segment_type : String
  data : String
  priority : Int
deriving DecidableEq, Repr

/-- One entry of the list returned by `build_render_timeline`, a Python dict:
`duration` and `data` are keys that `original_video` entries do not carry,
modelled as `Option` fields (`none` = key absent). -/
structure RenderEntry where
  type : String
  start : ℚ
  «end» : ℚ
  duration : Option ℚ
  data : Option String
deriving DecidableEq, Repr

/-- The `segment_type in ["ai_image", "custom_image"]` test of line 50 of
`timeline_manager.py`. -/
def isImageSegment (s : TimelineSegment) : Bool :=
  s.segment_type == "ai_image" || s.segment_type == "custom_image"

/-- The image event dict appended at lines 58-59 of `timeline_manager.py`. -/
def imageEntry (s : TimelineSegment) : RenderEntry :=
  ⟨s.segment_type, s.start_time, s.end_time, some (s.end_time - s.start_time), some s.data⟩

/-- The text event dict appended at lines 64-65 of `timeline_manager.py`. -/
def textEntry (s : TimelineSegment) : RenderEntry :=
  ⟨"text_overlay", s.start_time, s.end_time, some (s.end_time - s.start_time), some s.data⟩

/-- The cursor walk of lines 54-62 of `timeline_manager.py`: emit an
`original_video` filler before each image when there is a gap, the image
entry itself, and a trailing `original_video` filler up to `video_duration`. -/
def backboneLoop (video_duration : ℚ) : ℚ → List TimelineSegment → List RenderEntry
  | current_time, [] =>
    if current_time < video_duration then
      [⟨"original_video", current_time, video_duration, none, none⟩]
    else []
  | current_time, s :: rest =>
    (if current_time < s.start_time then
      [⟨"original_video", current_time, s.start_time, none, none⟩]
    else []) ++ imageEntry s :: backboneLoop video_duration s.end_time rest

/-- Shallow embedding of `TimelineManager.build_render_timeline`
(lines 49-68 of `timeline_manager.py`): image segments are stably sorted by
start time, walked by the cursor loop, text overlays are appended, and the
whole event list is stably sorted by start. -/
def build_render_timeline (segments : List TimelineSegment) (video_duration : ℚ) :
    List RenderEntry :=
  let image_segments :=
    List.insertionSort (fun a b => a.start_time ≤ b.start_time)
      (segments.filter isImageSegment)
  let text_segments := segments.filter (fun s => s.segment_type == "text")
  List.insertionSort (fun a b => a.start ≤ b.start)
    (backboneLoop video_duration 0 image_segments ++ text_segments.map textEntry)

/-- Entries of the video backbone: `original_video` plus the two image
types. -/
def isBackboneEntry (e : RenderEntry) : Bool :=
  e.type == "original_video" || e.type == "ai_image" || e.type == "custom_image"

/-- Two timeline segments occupy disjoint time ranges. -/
def SegNonOverlap (a b : TimelineSegment) : Prop :=
  a.end_time ≤ b.start_time ∨ b.end_time ≤ a.start_time

/-- Membership in the last element of a cons either hits the head of a
singleton or the last element of the tail. -/
theorem mem_getLast?_cons {α : Type} {a : α} {l : List α} {p : α}
    (hp : p ∈ (a :: l).getLast?) : (l = [] ∧ p = a) ∨ p ∈ l.getLast? := by
  rw [List.getLast?_cons] at hp
  cases hl : l.getLast? with
  | none =>
    left
    rw [hl] at hp
    exact ⟨List.getLast?_eq_none_iff.mp hl, by simpa using hp.symm⟩
  | some q =>
    right
    rw [hl] at hp
    simp only [Option.getD_some, Option.mem_def, Option.some.injEq] at hp
    subst hp
    exact rfl

/-- Core facts about the cursor walk: on a sorted, valid, non-overlapping
image list starting at or after the cursor, the emitted backbone entries
tile `[cur, video_duration)` exactly. -/
theorem backboneLoop_spec (video_duration : ℚ) :
    ∀ (imgs : List TimelineSegment) (cur : ℚ),
      (∀ s ∈ imgs, isImageSegment s = true) →
      (∀ s ∈ imgs, s.start_time < s.end_time ∧ s.end_time ≤ video_duration) →
      imgs.Chain' (fun a b => a.end_time ≤ b.start_time) →
      (∀ s ∈ imgs.head?, cur ≤ s.start_time) →
      (backboneLoop video_duration cur imgs).Chain' (fun p q => p.«end» = q.start) ∧
      (∀ p ∈ backboneLoop video_duration cur imgs, p.start < p.«end») ∧
      (∀ p ∈ backboneLoop video_duration cur imgs, isBackboneEntry p = true) ∧
      (∀ p ∈ (backboneLoop video_duration cur imgs).head?, p.start = cur) ∧
      (∀ p ∈ (backboneLoop video_duration cur imgs).getLast?, p.«end» = video_duration) ∧
      (backboneLoop video_duration cur imgs = [] ↔
        (imgs = [] ∧ video_duration ≤ cur)) := by
  intro imgs
  induction imgs with
  | nil =>
    intro cur _ _ _ _
    by_cases hlt : cur < video_duration
    · refine ⟨?_, ?_, ?_, ?_, ?_, ?_⟩ <;>
        simp [backboneLoop, hlt, isBackboneEntry]
    · have hle : video_duration ≤ cur := le_of_not_lt hlt
      refine ⟨?_, ?_, ?_, ?_, ?_, ?_⟩ <;>
        simp [backboneLoop, hlt, hle]
  | cons s rest ih =>
    intro cur himg hval hchain hcur
    have hs_img : isImageSegment s = true := himg s (List.mem_cons_self s rest)
    have hs_val := hval s (List.mem_cons_self s rest)
    have hrest_img : ∀ t ∈ rest, isImageSegment t = true :=
      fun t ht => himg t (List.mem_cons_of_mem s ht)
    have hrest_val : ∀ t ∈ rest, t.start_time < t.end_time ∧ t.end_time ≤ video_duration :=
      fun t ht => hval t (List.mem_cons_of_mem s ht)
    have hrest_chain : rest.Chain' (fun a b => a.end_time ≤ b.start_time) := hchain.tail
    have hrest_link : ∀ t ∈ rest.head?, s.end_time ≤ t.start_time :=
      (List.chain'_cons'.mp hchain).1
    have hcs : cur ≤ s.start_time := hcur s rfl
    obtain ⟨ihChain, ihPos, ihType, ihHead, ihLast, ihNil⟩ :=
      ih s.end_time hrest_img hrest_val hrest_chain hrest_link
    have hBB : isBackboneEntry (imageEntry s) = true := by
      simp only [isImageSegment, Bool.or_eq_true, beq_iff_eq] at hs_img
      rcases hs_img with h | h <;> simp [isBackboneEntry, imageEntry, h]
    have hImgAdj : ∀ p ∈ (backboneLoop video_duration s.end_time rest).head?,
        (imageEntry s).«end» = p.start := by
      intro p hp
      rw [ihHead p hp, imageEntry]
    have hTailChain :
        (imageEntry s :: backboneLoop video_duration s.end_time rest).Chain'
          (fun p q => p.«end» = q.start) :=
      List.chain'_cons'.mpr ⟨hImgAdj, ihChain⟩
    have hLastCons : ∀ p ∈ (imageEntry s ::
        backboneLoop video_duration s.end_time rest).getLast?, p.«end» = video_duration := by
      intro p hp
      rcases mem_getLast?_cons hp with ⟨hnil, hpa⟩ | h
      · subst hpa
        have := (ihNil.mp hnil).2
        exact le_antisymm hs_val.2 this
      · exact ihLast p h
    by_cases hgap : cur < s.start_time
    · constructor
      · simp only [backboneLoop, if_pos hgap, List.singleton_append]
        refine List.chain'_cons'.mpr ⟨?_, hTailChain⟩
        intro p hp
        simp only [List.head?_cons, Option.mem_def, Option.some.injEq] at hp
        subst hp
        rfl
      refine ⟨?_, ?_, ?_, ?_, ?_⟩
      · intro p hp
        simp only [backboneLoop, if_pos hgap, List.singleton_append, List.mem_cons] at hp
        rcases hp with h | h | h
        · subst h; exact hgap
        · subst h; exact hs_val.1
        · exact ihPos p h
      · intro p hp
        simp only [backboneLoop, if_pos hgap, List.singleton_append, List.mem_cons] at hp
        rcases hp with h | h | h
        · subst h; rfl
        · subst h; exact hBB
        · exact ihType p h
      · intro p hp
        simp only [backboneLoop, if_pos hgap, List.singleton_append, List.head?_cons,
          Option.mem_def, Option.some.injEq] at hp
        subst hp
        rfl
      · intro p hp
        simp only [backboneLoop, if_pos hgap, List.singleton_append] at hp
        rcases mem_getLast?_cons hp with ⟨hnil, _⟩ | h
        · exact absurd hnil (List.cons_ne_nil _ _)
        · exact hLastCons p h
      · simp [backboneLoop, if_pos hgap]
    · have hcse : cur = s.start_time := le_antisymm hcs (le_of_not_lt hgap)
      constructor
      · simp only [backboneLoop, if_neg hgap, List.nil_append]
        exact hTailChain
      refine ⟨?_, ?_, ?_, ?_, ?_⟩
      · intro p hp
        simp only [backboneLoop, if_neg hgap, List.nil_append, List.mem_cons] at hp
        rcases hp with h | h
        · subst h; exact hs_val.1
        · exact ihPos p h
      · intro p hp
        simp only [backboneLoop, if_neg hgap, List.nil_append, List.mem_cons] at hp
        rcases hp with h | h
        · subst h; exact hBB
        · exact ihType p h
      · intro p hp
        simp only [backboneLoop, if_neg hgap, List.nil_append, List.head?_cons,
          Option.mem_def, Option.some.injEq] at hp
        subst hp
        exact hcse.symm
      · intro p hp
        simp only [backboneLoop, if_neg hgap, List.nil_append] at hp
        exact hLastCons p hp
      · simp [backboneLoop, if_neg hgap]

/-- A tiling chain with forward-spanning entries is strictly ordered by
start. -/
theorem chain'_lt_of_tiles : ∀ (l : List RenderEntry),
    l.Chain' (fun p q => p.«end» = q.start) → (∀ p ∈ l, p.start < p.«end») →
    l.Chain' (fun p q => p.start < q.start) := by
  intro l
  induction l with
  | nil => intro _ _; exact List.chain'_nil
  | cons p rest ih =>
    intro hc hp
    rcases rest with _ | ⟨q, rest'⟩
    · exact List.chain'_singleton _
    · rw [List.chain'_cons] at hc ⊢
      refine ⟨?_, ih hc.2 (fun x hx => hp x (List.mem_cons_of_mem _ hx))⟩
      calc p.start < p.«end» := hp p (List.mem_cons_self p _)
        _ = q.start := hc.1

/-- The text overlays land after the backbone in the final stable sort of
`build_render_timeline` without disturbing the backbone entries: filtering
the sorted event list back to backbone entries recovers the cursor walk's
output unchanged. -/
theorem filter_backbone_sorted (bbL texts : List RenderEntry)
    (hbbChain : bbL.Chain' (fun p q => p.«end» = q.start))
    (hbbPos : ∀ p ∈ bbL, p.start < p.«end»)
    (hbbType : ∀ p ∈ bbL, isBackboneEntry p = true)
    (htextType : ∀ p ∈ texts, isBackboneEntry p = false) :
    (List.insertionSort (fun a b => a.start ≤ b.start) (bbL ++ texts)).filter
      isBackboneEntry = bbL := by
  haveI : IsTrans RenderEntry (fun a b : RenderEntry => a.start < b.start) :=
    ⟨fun _ _ _ h h2 => lt_trans h h2⟩
  have hbbLe : bbL.Pairwise (fun a b : RenderEntry => a.start ≤ b.start) :=
    (List.chain'_iff_pairwise.mp (chain'_lt_of_tiles bbL hbbChain hbbPos)).imp le_of_lt
  have hstable : List.Sublist bbL
      (List.insertionSort (fun a b => a.start ≤ b.start) (bbL ++ texts)) :=
    List.sublist_insertionSort hbbLe (List.sublist_append_left bbL texts)
  have hperm2 : List.Perm (List.insertionSort (fun a b => a.start ≤ b.start) (bbL ++ texts))
      (bbL ++ texts) := List.perm_insertionSort _ _
  have hfperm : List.Perm ((List.insertionSort (fun a b => a.start ≤ b.start)
      (bbL ++ texts)).filter isBackboneEntry) bbL := by
    have htnil : List.filter isBackboneEntry texts = [] :=
      List.filter_eq_nil_iff.mpr (fun a ha => by simp [htextType a ha])
    have h := hperm2.filter isBackboneEntry
    rw [List.filter_append, List.filter_eq_self.mpr hbbType, htnil,
      List.append_nil] at h
    exact h
  have hfsub : List.Sublist bbL ((List.insertionSort (fun a b => a.start ≤ b.start)
      (bbL ++ texts)).filter isBackboneEntry) := by
    have h := hstable.filter isBackboneEntry
    rwa [List.filter_eq_self.mpr hbbType] at h
  exact (hfsub.eq_of_length hfperm.length_eq.symm).symm

/-- C1: for every list of timeline segments whose image segments are valid
and pairwise non-overlapping with end times within `video_duration`, the
`original_video` / `ai_image` / `custom_image` entries of
`build_render_timeline`'s output, in order, exactly tile
`[0, video_duration)`: consecutive entries meet end-to-start, every entry
spans forward, the first starts at `0` and the last ends at
`video_duration` (and the backbone is empty exactly when the duration is
zero or negative). -/
theorem build_render_timeline_tiles (segments : List TimelineSegment) (video_duration : ℚ)
    (hval : ∀ s ∈ segments, isImageSegment s = true →
      0 ≤ s.start_time ∧ s.start_time < s.end_time ∧ s.end_time ≤ video_duration)
    (hsep : (segments.filter isImageSegment).Pairwise SegNonOverlap) :
    ((build_render_timeline segments video_duration).filter isBackboneEntry).Chain'
        (fun p q => p.«end» = q.start) ∧
    (∀ p ∈ (build_render_timeline segments video_duration).filter isBackboneEntry,
      p.start < p.«end») ∧
    (if 0 < video_duration then
      ((build_render_timeline segments video_duration).filter isBackboneEntry).head?.map
          RenderEntry.start = some 0 ∧
      ((build_render_timeline segments video_duration).filter isBackboneEntry).getLast?.map
          (fun p => p.«end») = some video_duration
    else (build_render_timeline segments video_duration).filter isBackboneEntry = []) := by
  classical
  haveI : IsTotal TimelineSegment (fun a b : TimelineSegment => a.start_time ≤ b.start_time) :=
    ⟨fun a b => le_total _ _⟩
  haveI : IsTrans TimelineSegment (fun a b : TimelineSegment => a.start_time ≤ b.start_time) :=
    ⟨fun _ _ _ h h2 => le_trans h h2⟩
  set sorted := List.insertionSort (fun a b => a.start_time ≤ b.start_time)
    (segments.filter isImageSegment) with hsortdef
  have hperm : List.Perm sorted (segments.filter isImageSegment) :=
    List.perm_insertionSort _ _
  have hmem : ∀ s ∈ sorted, s ∈ segments.filter isImageSegment :=
    fun s hs => hperm.mem_iff.mp hs
  have himgS : ∀ s ∈ sorted, isImageSegment s = true :=
    fun s hs => (List.mem_filter.mp (hmem s hs)).2
  have hvalS : ∀ s ∈ sorted, s.start_time < s.end_time ∧ s.end_time ≤ video_duration := by
    intro s hs
    obtain ⟨h1, h2⟩ := List.mem_filter.mp (hmem s hs)
    exact ⟨(hval s h1 h2).2.1, (hval s h1 h2).2.2⟩
  have hposS : ∀ s ∈ sorted, 0 ≤ s.start_time := by
    intro s hs
    obtain ⟨h1, h2⟩ := List.mem_filter.mp (hmem s hs)
    exact (hval s h1 h2).1
  have hsortS : sorted.Pairwise (fun a b => a.start_time ≤ b.start_time) :=
    List.sorted_insertionSort _ _
  have hsepS : sorted.Pairwise SegNonOverlap :=
    (hperm.pairwise_iff (fun hxy => hxy.symm)).mpr hsep
  have hchainS : sorted.Chain' (fun a b => a.end_time ≤ b.start_time) := by
    have hP : sorted.Pairwise (fun a b => a.end_time ≤ b.start_time) := by
      refine (hsortS.and hsepS).imp_of_mem ?_
      intro a b ha hb hab
      rcases hab.2 with h | h
      · exact h
      · exact absurd (lt_of_lt_of_le (hvalS b hb).1 (le_trans h hab.1)) (lt_irrefl _)
    exact hP.chain'
  obtain ⟨bChain, bPos, bType, bHead, bLast, bNil⟩ :=
    backboneLoop_spec video_duration sorted 0 himgS hvalS hchainS
      (fun s hs => hposS s (List.mem_of_mem_head? hs))
  have htextType : ∀ p ∈ (segments.filter
      (fun s => s.segment_type == "text")).map textEntry, isBackboneEntry p = false := by
    intro p hp
    obtain ⟨s, _, hps⟩ := List.mem_map.mp hp
    subst hps
    rfl
  have hbody : build_render_timeline segments video_duration =
      List.insertionSort (fun a b => a.start ≤ b.start)
        (backboneLoop video_duration 0 sorted ++
          (segments.filter (fun s => s.segment_type == "text")).map textEntry) := rfl
  have hfilter : (build_render_timeline segments video_duration).filter isBackboneEntry =
      backboneLoop video_duration 0 sorted := by
    rw [hbody]
    exact filter_backbone_sorted _ _ bChain bPos bType htextType
  rw [hfilter]
  refine ⟨bChain, bPos, ?_⟩
  by_cases h0 : 0 < video_duration
  · rw [if_pos h0]
    have hne : backboneLoop video_duration 0 sorted ≠ [] := by
      intro hnil
      exact absurd h0 (not_lt.mpr (bNil.mp hnil).2)
    constructor
    · cases hbb : backboneLoop video_duration 0 sorted with
      | nil => exact absurd hbb hne
      | cons e l =>
        have he : e.start = 0 := by
          refine bHead e ?_
          rw [hbb]
          exact rfl
        simp [he]
    · have hsome := List.getLast?_isSome.mpr hne
      obtain ⟨p, hp⟩ := Option.isSome_iff_exists.mp hsome
      rw [hp]
      have hpe : p.«end» = video_duration := bLast p (by rw [hp]; exact rfl)
      simp [hpe]
  · rw [if_neg h0]
    have hse : sorted = [] := by
      rw [List.eq_nil_iff_forall_not_mem]
      intro s hs
      have h1 := hposS s hs
      have h2 := hvalS s hs
      have : (0 : ℚ) < 0 :=
        lt_of_le_of_lt h1 (lt_of_lt_of_le h2.1 (le_trans h2.2 (le_of_not_lt h0)))
      exact lt_irrefl _ this
    exact bNil.mpr ⟨hse, le_of_not_lt h0⟩

/-- Witness for C1: one `ai_image` segment over `[1, 2)` inside a 3-second
video. -/
theorem build_render_timeline_tiles_witness :
    ((build_render_timeline [⟨1, 2, "ai_image", "img", 50⟩] 3).filter isBackboneEntry).Chain'
        (fun p q => p.«end» = q.start) ∧
    (∀ p ∈ (build_render_timeline [⟨1, 2, "ai_image", "img", 50⟩] 3).filter isBackboneEntry,
      p.start < p.«end») ∧
    (if (0 : ℚ) < 3 then
      ((build_render_timeline [⟨1, 2, "ai_image", "img", 50⟩] 3).filter
          isBackboneEntry).head?.map RenderEntry.start = some 0 ∧
      ((build_render_timeline [⟨1, 2, "ai_image", "img", 50⟩] 3).filter
          isBackboneEntry).getLast?.map (fun p => p.«end») = some 3
    else (build_render_timeline [⟨1, 2, "ai_image", "img", 50⟩] 3).filter
        isBackboneEntry = []) :=
  build_render_timeline_tiles [⟨1, 2, "ai_image", "img", 50⟩] 3 (by decide)
    (by simp [List.filter, isImageSegment])

/-! ## Persisted timeline and resume (`export_timeline` / `resume_assembly.py`) -/

/-- One persisted segment dict as written by `TimelineManager.export_timeline`
(lines 70-75 of `timeline_manager.py`): `{start_time, end_time, type,
priority, data}`. -/
structure PersistedSegment where
  start_time : ℚ
  end_time : ℚ
  type : String
  priority : Int
  data : String
deriving DecidableEq, Repr

/-- Shallow embedding of `TimelineManager.export_timeline`: the persisted
`segments` list (JSON round-trips these fields exactly). -/
def export_timeline (segments : List TimelineSegment) : List PersistedSegment :=
  segments.map fun s => ⟨s.start_time, s.end_time, s.segment_type, s.priority, s.data⟩

/-- The per-segment conversion of `resume_assembly` (lines 34-40 of
`resume_assembly.py`): `start_time`/`end_time` are renamed to
`start`/`end`; no `duration` key is produced. -/
def resumeConvert (s : PersistedSegment) : RenderEntry :=
  ⟨s.type, s.start_time, s.end_time, none, some s.data⟩

/-- Shallow embedding of the segment dispatch of `resume_assembly`
(lines 31-45 of `resume_assembly.py`): the reimported render timeline and
the reimported text segments. -/
def resume_assembly (persisted : List PersistedSegment) :
    List RenderEntry × List RenderEntry :=
  ((persisted.filter (fun s =>
      s.type == "video" || s.type == "ai_image" || s.type == "custom_image")).map
    resumeConvert,
   (persisted.filter (fun s => s.type == "text")).map resumeConvert)

/-- Counterexample to C8 as stated: for a single `ai_image` segment over
`[1, 2)` and a 3-second video, the reimported render timeline has one entry
while the directly built plan has three (`original_video` fillers are not
reproduced), so the round-trip is not value-identical. -/
theorem roundtrip_counterexample :
    (resume_assembly (export_timeline [⟨1, 2, "ai_image", "img", 50⟩])).1 ≠
      build_render_timeline [⟨1, 2, "ai_image", "img", 50⟩] 3 := by
  intro h
  have hlen := congrArg List.length h
  norm_num [resume_assembly, export_timeline, resumeConvert, build_render_timeline,
    backboneLoop, imageEntry, isImageSegment, List.filter, List.length_insertionSort] at hlen

/-- Image entries are exactly what survives filtering the cursor walk's
output to image types. -/
theorem backboneLoop_filter_images (video_duration : ℚ) :
    ∀ (imgs : List TimelineSegment) (cur : ℚ),
      (∀ s ∈ imgs, isImageSegment s = true) →
      (backboneLoop video_duration cur imgs).filter
          (fun e => e.type == "ai_image" || e.type == "custom_image") =
        imgs.map imageEntry := by
  intro imgs
  induction imgs with
  | nil =>
    intro cur _
    by_cases hlt : cur < video_duration <;> simp [backboneLoop, hlt]
  | cons s rest ih =>
    intro cur himg
    have hs := himg s (List.mem_cons_self s rest)
    have hq : (fun e : RenderEntry => e.type == "ai_image" || e.type == "custom_image")
        (imageEntry s) = true := by
      simp only [isImageSegment, Bool.or_eq_true, beq_iff_eq] at hs
      rcases hs with h | h <;> simp [imageEntry, h]
    by_cases hgap : cur < s.start_time <;>
      simp [backboneLoop, hgap, List.filter_append, hq,
        ih s.end_time (fun t ht => himg t (List.mem_cons_of_mem s ht))]

/-- C8 (amended): reimporting the exported timeline reproduces exactly the
image entries of the directly built render plan — same type, start, end and
data, as a permutation and minus the derived `duration` key — while the
`original_video` fillers, the `duration` keys and the `text_overlay`
relabelling of the direct plan are not reproduced. -/
theorem roundtrip_image_entries (segments : List TimelineSegment) (video_duration : ℚ)
    (htypes : ∀ s ∈ segments, s.segment_type = "text" ∨ s.segment_type = "ai_image" ∨
      s.segment_type = "custom_image") :
    List.Perm
      ((resume_assembly (export_timeline segments)).1.map
        (fun e => (e.type, e.start, e.«end», e.data)))
      (((build_render_timeline segments video_duration).filter
          (fun e => e.type == "ai_image" || e.type == "custom_image")).map
        (fun e => (e.type, e.start, e.«end», e.data))) := by
  classical
  have hflt : List.filter ((fun t : PersistedSegment =>
      t.type == "video" || t.type == "ai_image" || t.type == "custom_image") ∘
      fun s : TimelineSegment =>
        (⟨s.start_time, s.end_time, s.segment_type, s.priority, s.data⟩ : PersistedSegment))
      segments = List.filter isImageSegment segments := by
    apply List.filter_congr
    intro s hs
    rcases htypes s hs with h | h | h <;> simp [isImageSegment, Function.comp, h]
  have hLHS : (resume_assembly (export_timeline segments)).1.map
      (fun e => (e.type, e.start, e.«end», e.data)) =
      (segments.filter isImageSegment).map
        (fun s => (s.segment_type, s.start_time, s.end_time, some s.data)) := by
    simp only [resume_assembly, export_timeline, List.filter_map, List.map_map]
    rw [hflt]
    rfl
  set sorted := List.insertionSort (fun a b => a.start_time ≤ b.start_time)
    (segments.filter isImageSegment) with hsortdef
  have hperm : List.Perm sorted (segments.filter isImageSegment) :=
    List.perm_insertionSort _ _
  have himgS : ∀ s ∈ sorted, isImageSegment s = true :=
    fun s hs => (List.mem_filter.mp (hperm.mem_iff.mp hs)).2
  have hplanperm : List.Perm
      ((build_render_timeline segments video_duration).filter
        (fun e => e.type == "ai_image" || e.type == "custom_image"))
      (sorted.map imageEntry) := by
    have hp : List.Perm (build_render_timeline segments video_duration)
        (backboneLoop video_duration 0 sorted ++
          (segments.filter (fun s => s.segment_type == "text")).map textEntry) :=
      List.perm_insertionSort _ _
    have h := hp.filter (fun e => e.type == "ai_image" || e.type == "custom_image")
    rw [List.filter_append, backboneLoop_filter_images video_duration sorted 0 himgS] at h
    have htx : ((segments.filter (fun s => s.segment_type == "text")).map textEntry).filter
        (fun e => e.type == "ai_image" || e.type == "custom_image") = [] := by
      refine List.filter_eq_nil_iff.mpr ?_
      intro e he
      obtain ⟨s, _, hes⟩ := List.mem_map.mp he
      subst hes
      simp [textEntry]
    rw [htx, List.append_nil] at h
    exact h
  rw [hLHS]
  refine List.Perm.trans ?_ (hplanperm.map _).symm
  rw [List.map_map]
  have hfun : ((fun e : RenderEntry => (e.type, e.start, e.«end», e.data)) ∘ imageEntry) =
      fun s : TimelineSegment =>
        (s.segment_type, s.start_time, s.end_time, some s.data) := rfl
  rw [hfun]
  exact (hperm.map _).symm

/-- Witness for C8: the amended round-trip at a concrete one-image timeline. -/
theorem roundtrip_image_entries_witness :
    List.Perm
      ((resume_assembly (export_timeline [⟨1, 2, "ai_image", "img", 50⟩])).1.map
        (fun e => (e.type, e.start, e.«end», e.data)))
      (((build_render_timeline [⟨1, 2, "ai_image", "img", 50⟩] 3).filter
          (fun e => e.type == "ai_image" || e.type == "custom_image")).map
        (fun e => (e.type, e.start, e.«end», e.data))) :=
  roundtrip_image_entries [⟨1, 2, "ai_image", "img", 50⟩] 3 (by decide)

/-! ## Image selection policy (`content_analyzer.py` / `settings.py`) -/

/-- Fields of one analysis result consumed by the selection policy at the
end of `batch_analyze_segments` (per-segment analysis itself is an external
LLM call). -/
structure AnalysisResult where
  segment_id : Int
  needs_visualization : Bool
  importance_score : ℚ
deriving DecidableEq, Repr

/-- Constant `MAX_IMAGES_TOTAL` of `settings.py` line 23. -/
def MAX_IMAGES_TOTAL : Nat := 5

/-- Constant `MIN_IMAGES_GUARANTEED` of `settings.py` line 24. -/
def MIN_IMAGES_GUARANTEED : Nat := 3

/-- Shallow embedding of the selection policy of
`ContentAnalyzer.batch_analyze_segments` (lines 109-126 of
`content_analyzer.py`): results are stably sorted by importance descending
(`reverse=True` keeps ties in original order), candidates needing
visualization are filtered out, and the three-way count policy is applied. -/
def batch_analyze_segments (results : List AnalysisResult) : List AnalysisResult :=
  let sorted := List.insertionSort
    (fun a b => b.importance_score ≤ a.importance_score) results
  let visualization_candidates := sorted.filter (fun r => r.needs_visualization)
  if MAX_IMAGES_TOTAL ≤ visualization_candidates.length then
    visualization_candidates.take MAX_IMAGES_TOTAL
  else if MIN_IMAGES_GUARANTEED ≤ visualization_candidates.length then
    visualization_candidates
  else
    sorted.take MIN_IMAGES_GUARANTEED

/-- Counterexample to C5 as stated: the selection is not highest-score-first
from the input.  With five low-scoring flagged candidates and one unflagged
result carrying the strictly highest importance score, the `needs_visualization`
filter makes the policy pass over the top scorer: it is in the input, absent
from the output, and every selected entry scores strictly below it. -/
theorem batch_analyze_drops_top_scorer :
    (⟨0, false, 10⟩ : AnalysisResult) ∈
      ([⟨0, false, 10⟩, ⟨1, true, 1⟩, ⟨2, true, 2⟩, ⟨3, true, 3⟩,
        ⟨4, true, 4⟩, ⟨5, true, 5⟩] : List AnalysisResult) ∧
    (⟨0, false, 10⟩ : AnalysisResult) ∉
      batch_analyze_segments [⟨0, false, 10⟩, ⟨1, true, 1⟩, ⟨2, true, 2⟩,
        ⟨3, true, 3⟩, ⟨4, true, 4⟩, ⟨5, true, 5⟩] ∧
    ∀ x ∈ batch_analyze_segments [⟨0, false, 10⟩, ⟨1, true, 1⟩, ⟨2, true, 2⟩,
        ⟨3, true, 3⟩, ⟨4, true, 4⟩, ⟨5, true, 5⟩],
      x.importance_score < 10 := by
  decide

/-- C5 (amended): the selection policy returns at most `MAX_IMAGES_TOTAL` (5)
entries, at least `min MIN_IMAGES_GUARANTEED (input length)` entries — so
fewer than 3 only when the input itself has fewer than 3 entries — ordered by
importance score descending, all drawn from the input, and highest-score-first
among the visualization candidates: an unselected result flagged
`needs_visualization` never outscores any selected entry (an unflagged top
scorer, however, can be passed over). -/
theorem batch_analyze_selection (results : List AnalysisResult) :
    (batch_analyze_segments results).length ≤ MAX_IMAGES_TOTAL ∧
    min MIN_IMAGES_GUARANTEED results.length ≤ (batch_analyze_segments results).length ∧
    ((batch_analyze_segments results).length < MIN_IMAGES_GUARANTEED →
      results.length < MIN_IMAGES_GUARANTEED) ∧
    (batch_analyze_segments results).Pairwise
      (fun a b => b.importance_score ≤ a.importance_score) ∧
    (∀ r ∈ batch_analyze_segments results, r ∈ results) ∧
    (∀ x ∈ batch_analyze_segments results, ∀ y ∈ results,
      y.needs_visualization = true → y ∉ batch_analyze_segments results →
      y.importance_score ≤ x.importance_score) := by
  classical
  haveI : IsTotal AnalysisResult
      (fun a b : AnalysisResult => b.importance_score ≤ a.importance_score) :=
    ⟨fun a b => le_total _ _⟩
  haveI : IsTrans AnalysisResult
      (fun a b : AnalysisResult => b.importance_score ≤ a.importance_score) :=
    ⟨fun _ _ _ h h2 => le_trans h2 h⟩
  set sorted := List.insertionSort
    (fun a b => b.importance_score ≤ a.importance_score) results with hsorteddef
  have hsl : sorted.length = results.length := (List.perm_insertionSort _ _).length_eq
  have hsorted : sorted.Pairwise
      (fun a b => b.importance_score ≤ a.importance_score) :=
    List.sorted_insertionSort _ _
  have hpermS : List.Perm sorted results := List.perm_insertionSort _ _
  have hmemS : ∀ x ∈ sorted, x ∈ results := fun x hx => hpermS.mem_iff.mp hx
  set cands := sorted.filter (fun r => r.needs_visualization) with hcandsdef
  have hcand_sorted : cands.Pairwise
      (fun a b => b.importance_score ≤ a.importance_score) := hsorted.filter _
  have hcand_mem : ∀ x ∈ cands, x ∈ results :=
    fun x hx => hmemS x (List.mem_of_mem_filter hx)
  have hcl : cands.length ≤ results.length := by
    rw [← hsl]
    exact List.length_filter_le _ _
  have hdef : batch_analyze_segments results =
      if MAX_IMAGES_TOTAL ≤ cands.length then cands.take MAX_IMAGES_TOTAL
      else if MIN_IMAGES_GUARANTEED ≤ cands.length then cands
      else sorted.take MIN_IMAGES_GUARANTEED := rfl
  rw [hdef]
  split_ifs with h5 h3
  · have hlen : (cands.take MAX_IMAGES_TOTAL).length = MAX_IMAGES_TOTAL := by
      rw [List.length_take]
      simp only [MAX_IMAGES_TOTAL] at h5 ⊢
      omega
    refine ⟨le_of_eq hlen, ?_, ?_, ?_, ?_, ?_⟩
    · rw [hlen]
      simp only [MIN_IMAGES_GUARANTEED, MAX_IMAGES_TOTAL]
      omega
    · intro h
      rw [hlen] at h
      simp only [MIN_IMAGES_GUARANTEED, MAX_IMAGES_TOTAL] at h
      omega
    · exact hcand_sorted.sublist (List.take_sublist _ _)
    · intro r hr
      exact hcand_mem r (List.mem_of_mem_take hr)
    · intro x hx y hy hflag hnot
      have hyc : y ∈ cands :=
        List.mem_filter.mpr ⟨hpermS.mem_iff.mpr hy, hflag⟩
      rw [← List.take_append_drop MAX_IMAGES_TOTAL cands] at hyc
      rcases List.mem_append.mp hyc with h | h
      · exact absurd h hnot
      · exact List.Sorted.rel_of_mem_take_of_mem_drop hcand_sorted hx h
  · refine ⟨le_of_not_le h5, ?_, ?_, hcand_sorted, hcand_mem, ?_⟩
    · exact le_trans (min_le_left _ _) h3
    · intro h
      exact absurd h3 (not_le.mpr h)
    · intro x hx y hy hflag hnot
      exact absurd (List.mem_filter.mpr ⟨hpermS.mem_iff.mpr hy, hflag⟩) hnot
  · have hlen : (sorted.take MIN_IMAGES_GUARANTEED).length =
        min MIN_IMAGES_GUARANTEED results.length := by
      rw [List.length_take, hsl]
    refine ⟨?_, le_of_eq hlen.symm, ?_, ?_, ?_, ?_⟩
    · rw [hlen]
      simp only [MIN_IMAGES_GUARANTEED, MAX_IMAGES_TOTAL]
      omega
    · intro h
      rw [hlen] at h
      simp only [MIN_IMAGES_GUARANTEED] at h ⊢
      omega
    · exact hsorted.sublist (List.take_sublist _ _)
    · intro r hr
      exact hmemS r (List.mem_of_mem_take hr)
    · intro x hx y hy _ hnot
      have hys : y ∈ sorted := hpermS.mem_iff.mpr hy
      rw [← List.take_append_drop MIN_IMAGES_GUARANTEED sorted] at hys
      rcases List.mem_append.mp hys with h | h
      · exact absurd h hnot
      · exact List.Sorted.rel_of_mem_take_of_mem_drop hsorted hx h

/-- Witness for C5: a single-result input selects fewer than three entries
only because the input is smaller than three, and on six flagged candidates
the dominance clause puts the dropped lowest scorer below a selected top
scorer. -/
theorem batch_analyze_selection_witness :
    ([(⟨1, true, 5⟩ : AnalysisResult)] : List AnalysisResult).length <
      MIN_IMAGES_GUARANTEED ∧
    (batch_analyze_segments [⟨1, true, 5⟩]).length ≤ MAX_IMAGES_TOTAL ∧
    (⟨1, true, 1⟩ : AnalysisResult).importance_score ≤
      (⟨6, true, 6⟩ : AnalysisResult).importance_score :=
  ⟨(batch_analyze_selection [⟨1, true, 5⟩]).2.2.1 (by decide),
   (batch_analyze_selection [⟨1, true, 5⟩]).1,
   (batch_analyze_selection [⟨1, true, 1⟩, ⟨2, true, 2⟩, ⟨3, true, 3⟩,
       ⟨4, true, 4⟩, ⟨5, true, 5⟩, ⟨6, true, 6⟩]).2.2.2.2.2
     ⟨6, true, 6⟩ (by decide) ⟨1, true, 1⟩ (by decide) (by decide) (by decide)⟩

/-! ## Safe zones (`face_detector.py`) -/

/-- One detected face rectangle `(x, y, w, h)` in pixels. -/
structure Face where
  x : ℤ
  y : ℤ
  w : ℤ
  h : ℤ
deriving DecidableEq, Repr

/-- One scored zone of the 3-by-3 grid (`SafeZone` dataclass of
`face_detector.py`). -/
structure SafeZone where
  x : ℤ
  y : ℤ
  width : ℤ
  height : ℤ
  score : ℚ
deriving DecidableEq, Repr

/-- Shallow embedding of `FaceDetector._rectangles_overlap` (lines 56-57 of
`face_detector.py`); all comparisons are strict, so touching rectangles
count as overlapping. -/
def rectangles_overlap (x1 y1 w1 h1 x2 y2 w2 h2 : ℤ) : Bool :=
  !(decide (x1 + w1 < x2) || decide (x2 + w2 < x1) ||
    decide (y1 + h1 < y2) || decide (y2 + h2 < y1))

/-- Shallow embedding of `FaceDetector._calculate_overlap_percentage`
(lines 59-66 of `face_detector.py`): the intersection area as a percentage
of the first rectangle's own area, with a guard for zero area. -/
def calculate_overlap_percentage (x1 y1 w1 h1 x2 y2 w2 h2 : ℤ) : ℚ :=
  let x_overlap : ℤ := max 0 (min (x1 + w1) (x2 + w2) - max x1 x2)
  let y_overlap : ℤ := max 0 (min (y1 + h1) (y2 + h2) - max y1 y2)
  let intersection : ℤ := x_overlap * y_overlap
  let area1 : ℤ := w1 * h1
  if area1 = 0 then 0 else ((intersection : ℚ) / (area1 : ℚ)) * 100

/-- The per-face deduction fold of lines 43-46 of `face_detector.py`
starting from a score of 100. -/
def zoneBase (x y gw gh : ℤ) (faces : List Face) : ℚ :=
  faces.foldl
    (fun score f =>
      if rectangles_overlap x y gw gh f.x f.y f.w f.h then
        score - calculate_overlap_percentage x y gw gh f.x f.y f.w f.h
      else score)
    100

/-- The zone built for grid cell `(row, col)` by lines 40-52 of
`face_detector.py`: base score minus face overlaps, center penalty, bottom
bonus, clamped to `[0, 100]`. -/
def zoneAt (h w : ℕ) (faces : List Face) (row col : ℕ) : SafeZone :=
  let grid_h : ℤ := (h / 3 : ℕ)
  let grid_w : ℤ := (w / 3 : ℕ)
  let x : ℤ := (col : ℤ) * grid_w
  let y : ℤ := (row : ℤ) * grid_h
  let s0 := zoneBase x y grid_w grid_h faces
  let s1 := if row = 1 ∧ col = 1 then s0 - 10 else s0
  let s2 := if row = 2 then s1 + 15 else s1
  ⟨x, y, grid_w, grid_h, max 0 (min 100 s2)⟩

/-- The nine zones in the row-major order of the nested loops of lines 38-52
of `face_detector.py`. -/
def gridZones (h w : ℕ) (faces : List Face) : List SafeZone :=
  [zoneAt h w faces 0 0, zoneAt h w faces 0 1, zoneAt h w faces 0 2,
   zoneAt h w faces 1 0, zoneAt h w faces 1 1, zoneAt h w faces 1 2,
   zoneAt h w faces 2 0, zoneAt h w faces 2 1, zoneAt h w faces 2 2]

/-- Shallow embedding of `FaceDetector.calculate_safe_zones` (lines 33-54 of
`face_detector.py`): the nine grid zones stably sorted by score
descending. -/
def calculate_safe_zones (h w : ℕ) (faces : List Face) : List SafeZone :=
  List.insertionSort (fun a b => b.score ≤ a.score) (gridZones h w faces)

/-- The total percentage deduction of a zone, face by face. -/
def overlapSum (x y gw gh : ℤ) (faces : List Face) : ℚ :=
  (faces.map fun f =>
    if rectangles_overlap x y gw gh f.x f.y f.w f.h then
      calculate_overlap_percentage x y gw gh f.x f.y f.w f.h
    else 0).sum

/-- The subtraction fold equals the initial score minus the summed
deductions. -/
theorem zoneBase_eq_sub (x y gw gh : ℤ) :
    ∀ (faces : List Face) (a : ℚ),
      faces.foldl
        (fun score f =>
          if rectangles_overlap x y gw gh f.x f.y f.w f.h then
            score - calculate_overlap_percentage x y gw gh f.x f.y f.w f.h
          else score) a = a - overlapSum x y gw gh faces := by
  intro faces
  induction faces with
  | nil => intro a; simp [overlapSum]
  | cons f fs ih =>
    intro a
    by_cases hov : rectangles_overlap x y gw gh f.x f.y f.w f.h = true
    · simp only [List.foldl_cons, if_pos hov, ih, overlapSum, List.map_cons,
        List.sum_cons]
      ring
    · simp only [List.foldl_cons, if_neg hov, ih, overlapSum, List.map_cons,
        List.sum_cons]
      ring

/-- C10: `_calculate_overlap_percentage` is total and bounded: for all
integer rectangle inputs the result lies in `[0, 100]` (zero-area first
rectangles yield `0` through the guard), and for a first rectangle with
nonnegative sides the computed intersection never exceeds its own area, so
each per-face subtraction in `calculate_safe_zones` is at most 100. -/
theorem overlap_percentage_bounds (x1 y1 w1 h1 x2 y2 w2 h2 : ℤ) :
    0 ≤ calculate_overlap_percentage x1 y1 w1 h1 x2 y2 w2 h2 ∧
    calculate_overlap_percentage x1 y1 w1 h1 x2 y2 w2 h2 ≤ 100 ∧
    (0 ≤ w1 → 0 ≤ h1 →
      max 0 (min (x1 + w1) (x2 + w2) - max x1 x2) *
        max 0 (min (y1 + h1) (y2 + h2) - max y1 y2) ≤ w1 * h1) := by
  have hxod : min (x1 + w1) (x2 + w2) - max x1 x2 ≤ w1 := by omega
  have hyod : min (y1 + h1) (y2 + h2) - max y1 y2 ≤ h1 := by omega
  have hxo0 : (0 : ℤ) ≤ max 0 (min (x1 + w1) (x2 + w2) - max x1 x2) := le_max_left _ _
  have hyo0 : (0 : ℤ) ≤ max 0 (min (y1 + h1) (y2 + h2) - max y1 y2) := le_max_left _ _
  have hxow : max 0 (min (x1 + w1) (x2 + w2) - max x1 x2) ≤ max 0 w1 := by omega
  have hyow : max 0 (min (y1 + h1) (y2 + h2) - max y1 y2) ≤ max 0 h1 := by omega
  have hinter0 : (0 : ℤ) ≤ max 0 (min (x1 + w1) (x2 + w2) - max x1 x2) *
      max 0 (min (y1 + h1) (y2 + h2) - max y1 y2) := mul_nonneg hxo0 hyo0
  have hinterle : 0 ≤ w1 → 0 ≤ h1 →
      max 0 (min (x1 + w1) (x2 + w2) - max x1 x2) *
        max 0 (min (y1 + h1) (y2 + h2) - max y1 y2) ≤ w1 * h1 := by
    intro hw hh
    calc max 0 (min (x1 + w1) (x2 + w2) - max x1 x2) *
          max 0 (min (y1 + h1) (y2 + h2) - max y1 y2) ≤ max 0 w1 * max 0 h1 :=
        mul_le_mul hxow hyow hyo0 (le_max_left 0 w1)
      _ = w1 * h1 := by rw [max_eq_right hw, max_eq_right hh]
  have hboth : 0 ≤ calculate_overlap_percentage x1 y1 w1 h1 x2 y2 w2 h2 ∧
      calculate_overlap_percentage x1 y1 w1 h1 x2 y2 w2 h2 ≤ 100 := by
    by_cases hA : w1 * h1 = 0
    · simp [calculate_overlap_percentage, hA]
    · have hww : w1 ≠ 0 ∧ h1 ≠ 0 := mul_ne_zero_iff.mp hA
      rcases lt_or_gt_of_ne hww.1 with hw | hw
      · have hxo : max 0 (min (x1 + w1) (x2 + w2) - max x1 x2) = 0 := by omega
        simp [calculate_overlap_percentage, hA, hxo]
      · rcases lt_or_gt_of_ne hww.2 with hh | hh
        · have hyo : max 0 (min (y1 + h1) (y2 + h2) - max y1 y2) = 0 := by omega
          simp [calculate_overlap_percentage, hA, hyo]
        · have harea : (0 : ℤ) < w1 * h1 := mul_pos hw hh
          have hposQ : (0 : ℚ) < ((w1 * h1 : ℤ) : ℚ) := by exact_mod_cast harea
          have hint := hinterle (le_of_lt hw) (le_of_lt hh)
          simp only [calculate_overlap_percentage, if_neg hA]
          constructor
          · exact mul_nonneg (div_nonneg (by exact_mod_cast hinter0) (le_of_lt hposQ))
              (by norm_num)
          · have hdiv : ((max 0 (min (x1 + w1) (x2 + w2) - max x1 x2) *
                max 0 (min (y1 + h1) (y2 + h2) - max y1 y2) : ℤ) : ℚ) /
                ((w1 * h1 : ℤ) : ℚ) ≤ 1 := by
              rw [div_le_one hposQ]
              exact_mod_cast hint
            calc ((max 0 (min (x1 + w1) (x2 + w2) - max x1 x2) *
                  max 0 (min (y1 + h1) (y2 + h2) - max y1 y2) : ℤ) : ℚ) /
                  ((w1 * h1 : ℤ) : ℚ) * 100 ≤ 1 * 100 :=
                mul_le_mul_of_nonneg_right hdiv (by norm_num)
              _ = 100 := one_mul _
  exact ⟨hboth.1, hboth.2, hinterle⟩

/-- Witness for C10: a 100-by-100 zone at the origin against the face
`(130, 130, 40, 40)`. -/
theorem overlap_percentage_bounds_witness :
    0 ≤ calculate_overlap_percentage 0 0 100 100 130 130 40 40 ∧
    max 0 (min ((0 : ℤ) + 100) (130 + 40) - max 0 130) *
      max 0 (min ((0 : ℤ) + 100) (130 + 40) - max 0 130) ≤ 100 * 100 :=
  ⟨(overlap_percentage_bounds 0 0 100 100 130 130 40 40).1,
   (overlap_percentage_bounds 0 0 100 100 130 130 40 40).2.2 (by decide) (by decide)⟩

/-- Clamping into `[0, 100]` lands in `[0, 100]`. -/
theorem clamp_bounds (t : ℚ) : 0 ≤ max 0 (min 100 t) ∧ max 0 (min 100 t) ≤ 100 :=
  ⟨le_max_left _ _, max_le (by norm_num) (min_le_left _ _)⟩

/-- C6: `calculate_safe_zones` returns exactly nine zones — a permutation of
the row-major grid — where the cell `(row, col)` zone is positioned on the
`width // 3` by `height // 3` grid and scored 100 minus the percentage of
the zone's own area covered by each overlapping face, minus 10 for the
center cell, plus 15 for bottom-row cells, clamped into `[0, 100]`; the
returned list is ordered by score descending, and any score-ordered pair of
grid zones keeps its row-major relative order (stable ties). -/
theorem calculate_safe_zones_spec (h w : ℕ) (faces : List Face) :
    (calculate_safe_zones h w faces).length = 9 ∧
    List.Perm (calculate_safe_zones h w faces) (gridZones h w faces) ∧
    (∀ row col : ℕ, row < 3 → col < 3 →
      (gridZones h w faces)[3 * row + col]? =
        some ⟨(col : ℤ) * ((w / 3 : ℕ) : ℤ), (row : ℤ) * ((h / 3 : ℕ) : ℤ),
          ((w / 3 : ℕ) : ℤ), ((h / 3 : ℕ) : ℤ),
          max 0 (min 100
            ((100 - overlapSum ((col : ℤ) * ((w / 3 : ℕ) : ℤ))
                ((row : ℤ) * ((h / 3 : ℕ) : ℤ)) ((w / 3 : ℕ) : ℤ)
                ((h / 3 : ℕ) : ℤ) faces) +
              (if row = 1 ∧ col = 1 then (-10 : ℚ) else 0) +
              (if row = 2 then (15 : ℚ) else 0)))⟩) ∧
    (∀ z ∈ calculate_safe_zones h w faces, 0 ≤ z.score ∧ z.score ≤ 100) ∧
    (calculate_safe_zones h w faces).Pairwise (fun a b => b.score ≤ a.score) ∧
    (∀ a b : SafeZone, List.Sublist [a, b] (gridZones h w faces) →
      b.score ≤ a.score →
      List.Sublist [a, b] (calculate_safe_zones h w faces)) := by
  classical
  haveI : IsTotal SafeZone (fun a b : SafeZone => b.score ≤ a.score) :=
    ⟨fun a b => le_total _ _⟩
  haveI : IsTrans SafeZone (fun a b : SafeZone => b.score ≤ a.score) :=
    ⟨fun _ _ _ h1 h2 => le_trans h2 h1⟩
  refine ⟨?_, List.perm_insertionSort _ _, ?_, ?_, List.sorted_insertionSort _ _, ?_⟩
  · exact (List.perm_insertionSort _ _).length_eq.trans rfl
  · intro row col hr hc
    interval_cases row <;> interval_cases col <;>
      · simp [gridZones, zoneAt, zoneBase, zoneBase_eq_sub]
        try ring_nf
  · intro z hz
    have hz' : z ∈ gridZones h w faces := (List.mem_insertionSort _).mp hz
    simp only [gridZones, List.mem_cons, List.not_mem_nil, or_false] at hz'
    rcases hz' with h1 | h1 | h1 | h1 | h1 | h1 | h1 | h1 | h1 <;>
      (subst h1; exact clamp_bounds _)
  · intro a b hs hr
    exact List.sublist_insertionSort (List.pairwise_pair.mpr hr) hs

/-- Witness for C6: the bottom-left cell of a face-free 300-by-300 frame. -/
theorem calculate_safe_zones_spec_witness :
    (calculate_safe_zones 300 300 []).length = 9 ∧
    (gridZones 300 300 [])[3 * 2 + 0]? = some ⟨0, 200, 100, 100, 100⟩ := by
  have h := calculate_safe_zones_spec 300 300 []
  refine ⟨h.1, ?_⟩
  have h2 := h.2.2.1 2 0 (by decide) (by decide)
  rw [h2]
  norm_num [overlapSum]

/-- Full evaluation of the safe zones for a 300-by-300 frame with a single
face strictly inside the middle third: every zone except the center keeps
(or is clamped back to) the maximal score 100, and stable sorting leaves
the eight tied zones in row-major order ahead of the center zone. -/
theorem safe_zones_eval :
    calculate_safe_zones 300 300 [⟨130, 130, 40, 40⟩] =
      [⟨0, 0, 100, 100, 100⟩, ⟨100, 0, 100, 100, 100⟩, ⟨200, 0, 100, 100, 100⟩,
       ⟨0, 100, 100, 100, 100⟩, ⟨200, 100, 100, 100, 100⟩, ⟨0, 200, 100, 100, 100⟩,
       ⟨100, 200, 100, 100, 100⟩, ⟨200, 200, 100, 100, 100⟩,
       ⟨100, 100, 100, 100, 74⟩] := by
  norm_num [calculate_safe_zones, gridZones, zoneAt, zoneBase, rectangles_overlap,
    calculate_overlap_percentage, List.foldl]

/-- Counterexample to C7 as stated: for a single face centered in and
contained within the middle third of a 300-by-300 frame, the first returned
zone is not a bottom-row zone (its `y` is 0, not 200): the bottom-row bonus
is clamped from 115 back to 100, tying with every untouched zone, and ties
are broken by row-major scan order. -/
theorem safe_zone_head_counterexample :
    ((calculate_safe_zones 300 300 [⟨130, 130, 40, 40⟩]).head?.map SafeZone.y) ≠
      some 200 ∧
    ((calculate_safe_zones 300 300 [⟨130, 130, 40, 40⟩]).head?.map SafeZone.y) =
      some 0 := by
  rw [safe_zones_eval]
  exact ⟨by decide, by decide⟩

/-- C7 (amended): for the synthetic single-face frame, the head of the
returned zone list is the top-left zone with the maximal score 100; all
three bottom-row zones also attain score 100 (the +15 bonus is clamped),
and no zone exceeds 100, so the bottom row ties with the untouched zones
instead of beating them. -/
theorem safe_zone_head_amended :
    (calculate_safe_zones 300 300 [⟨130, 130, 40, 40⟩]).head? =
      some ⟨0, 0, 100, 100, 100⟩ ∧
    (calculate_safe_zones 300 300 [⟨130, 130, 40, 40⟩]).filter
        (fun z => z.y == 200) =
      [⟨0, 200, 100, 100, 100⟩, ⟨100, 200, 100, 100, 100⟩,
       ⟨200, 200, 100, 100, 100⟩] ∧
    (calculate_safe_zones 300 300 [⟨130, 130, 40, 40⟩]).all
        (fun z => decide (z.score ≤ 100)) = true := by
  rw [safe_zones_eval]
  exact ⟨rfl, by decide, by decide⟩

/-! ## Render assembly (`video_assembler.py`) -/

/-- One clip produced by the moviepy assembly loop: a sub-range of the
source video with audio stripped, or a resized image clip. -/
inductive Clip where
  | videoSub (start stop : ℚ)
  | image (path : String) (duration : ℚ)
deriving DecidableEq, Repr

/-- The clip-building loop of `VideoAssembler.assemble_final_video`
(lines 79-108 of `video_assembler.py`).  `Image.open` on a missing file
raises `FileNotFoundError`, modelled as `Except.error` carrying the missing
path; the function installs no exception handler, so the error propagates.
The empty tail emits the trailing sub-clip up to the video's duration. -/
def clipLoop (fileExists : String → Bool) (video_duration : ℚ) :
    ℚ → List RenderEntry → Except String (List Clip)
  | current_time, [] =>
    if current_time < video_duration then
      Except.ok [Clip.videoSub current_time video_duration]
    else Except.ok []
  | current_time, seg :: rest =>
    let gap : List Clip :=
      if current_time < seg.start then [Clip.videoSub current_time seg.start] else []
    let path := seg.data.getD ""
    if fileExists path then
      match clipLoop fileExists video_duration seg.«end» rest with
      | Except.ok clips =>
        Except.ok (gap ++ Clip.image path (seg.«end» - seg.start) :: clips)
      | Except.error e => Except.error e
    else Except.error path

/-- Shallow embedding of the image-composition phase of
`VideoAssembler.assemble_final_video` (lines 62-108 of
`video_assembler.py`): the plan's image entries are selected, sorted by
start, and walked by the clip loop against the set of existing files. -/
def assemble_final_video (fileExists : String → Bool) (video_duration : ℚ)
    (timeline : List RenderEntry) : Except String (List Clip) :=
  let image_segments := List.insertionSort (fun a b => a.start ≤ b.start)
    (timeline.filter (fun t => t.type == "ai_image" || t.type == "custom_image"))
  clipLoop fileExists video_duration 0 image_segments

/-- Counterexample to C9 as stated: with a single `ai_image` plan entry whose
file is missing, `assemble_final_video` raises (returns the error) instead
of skipping the entry and continuing. -/
theorem missing_image_counterexample :
    assemble_final_video (fun _ => false) 10
        [⟨"ai_image", 2, 3, some 1, some "img.png"⟩] =
      Except.error "img.png" := by
  norm_num [assemble_final_video, clipLoop, List.filter]

/-- The clip loop errors whenever some listed entry's file is missing. -/
theorem missing_image_aborts_loop (fileExists : String → Bool) (video_duration : ℚ) :
    ∀ (l : List RenderEntry) (cur : ℚ),
      (∃ e ∈ l, fileExists (e.data.getD "") = false) →
      ∃ p, clipLoop fileExists video_duration cur l = Except.error p := by
  intro l
  induction l with
  | nil =>
    intro cur h
    rcases h with ⟨e, he, _⟩
    exact absurd he (List.not_mem_nil e)
  | cons s rest ih =>
    intro cur h
    by_cases hf : fileExists (s.data.getD "") = true
    · have hrest : ∃ e ∈ rest, fileExists (e.data.getD "") = false := by
        rcases h with ⟨e, he, hef⟩
        rcases List.mem_cons.mp he with rfl | hmem
        · rw [hf] at hef
          exact absurd hef (by simp)
        · exact ⟨e, hmem, hef⟩
      obtain ⟨p, hp⟩ := ih s.«end» hrest
      refine ⟨p, ?_⟩
      simp only [clipLoop, hf, if_true, hp]
    · have hf' : fileExists (s.data.getD "") = false := by simpa using hf
      exact ⟨s.data.getD "", by simp [clipLoop, hf']⟩

/-- C9 (amended): a missing image asset is not skipped — whenever any image
entry of the plan references a missing file, `assemble_final_video` raises:
the whole render aborts with the error instead of continuing with the
remaining plan. -/
theorem missing_image_aborts (fileExists : String → Bool) (video_duration : ℚ)
    (timeline : List RenderEntry)
    (hmiss : ∃ e ∈ timeline, (e.type = "ai_image" ∨ e.type = "custom_image") ∧
      fileExists (e.data.getD "") = false) :
    ∃ p, assemble_final_video fileExists video_duration timeline =
      Except.error p := by
  apply missing_image_aborts_loop
  rcases hmiss with ⟨e, he, ht, hf⟩
  refine ⟨e, ?_, hf⟩
  apply (List.mem_insertionSort _).mpr
  refine List.mem_filter.mpr ⟨he, ?_⟩
  rcases ht with h | h <;> simp [h]

/-- Witness for C9 (amended): the single missing `ai_image` entry. -/
theorem missing_image_aborts_witness :
    ∃ p, assemble_final_video (fun _ => false) 10
        [⟨"ai_image", 2, 3, some 1, some "img.png"⟩] = Except.error p :=
  missing_image_aborts (fun _ => false) 10
    [⟨"ai_image", 2, 3, some 1, some "img.png"⟩]
    ⟨⟨"ai_image", 2, 3, some 1, some "img.png"⟩, by decide, Or.inl rfl, rfl⟩
